import Mathlib

/-!
Verification development for the tree2f repository (src/index.js).

The repository ships two variants of the same CLI in src/index.js
(separated by a document marker): an "A" variant (first copy) and a
"B" variant (second copy).  Both contain a function parseTree; they
differ in the file/directory classification and in the stored name.
We embed both, the command handlers, and the top-level main flow.

Strings are modelled as List Char (one entry per code point; every
character the program inspects — whitespace, box-drawing glyphs,
'.', '/', '\n' — lives in the BMP, so JS UTF-16 lengths agree with
the model on all inspected prefixes).
-/

namespace Tree2f

/-- Strings as lists of characters. -/
abbrev Str := List Char

/-- Shorthand to build a Str from a string literal. -/
def strL (s : String) : Str := s.toList

/-- The JavaScript whitespace class: what the regexp \s matches and
what String.prototype.trim strips. -/
def isJsSpace (c : Char) : Bool :=
  c = ' ' || c = '\t' || c = '\n' || (c = Char.ofNat 11) || (c = Char.ofNat 12) ||
  c = '\r' || c = Char.ofNat 0xa0 || c = Char.ofNat 0x1680 ||
  (0x2000 ≤ c.toNat && c.toNat ≤ 0x200a) ||
  c = Char.ofNat 0x2028 || c = Char.ofNat 0x2029 || c = Char.ofNat 0x202f ||
  c = Char.ofNat 0x205f || c = Char.ofNat 0x3000 || c = Char.ofNat 0xfeff

/-- The box-drawing glyphs the parser treats as indentation noise:
the character class [│├──└──] in src/index.js (duplicates collapse). -/
def isGlyph (c : Char) : Bool :=
  c = '│' || c = '├' || c = '─' || c = '└'

/-- JavaScript String.prototype.split with a single-character
separator: "a\nb".split("\n") = ["a","b"], "a\n".split("\n") = ["a",""]. -/
def splitChar (c : Char) : Str → List Str
  | [] => [[]]
  | d :: rest =>
    if d = c then [] :: splitChar c rest
    else
      match splitChar c rest with
      | [] => [[d]]
      | l :: ls => (d :: l) :: ls

/-- Leading-whitespace strip (half of String.prototype.trim). -/
def trimLeft (s : Str) : Str := s.dropWhile isJsSpace

/-- Trailing-whitespace strip (the other half of trim). -/
def trimRight (s : Str) : Str := (s.reverse.dropWhile isJsSpace).reverse

/-- JavaScript String.prototype.trim. -/
def jsTrim (s : Str) : Str := trimRight (trimLeft s)

/-- Depth of a line: the length of the match of /^[\s│├──└──]+/ (0 when
there is no match), exactly as both parseTree variants compute it. -/
def lineDepth (l : Str) : Nat :=
  (l.takeWhile (fun c => isJsSpace c || isGlyph c)).length

/-- Label of a line: line.replace(/[│├──└──]/g, "").trim(). -/
def lineName (l : Str) : Str :=
  jsTrim (l.filter (fun c => !isGlyph c))

/-- JavaScript name.endsWith("/"). -/
def endsSlash (s : Str) : Bool := s.getLast? = some '/'

/-- JavaScript name.replace(/\/$/, ""): drop one trailing '/'. -/
def stripTrailingSlash (s : Str) : Str :=
  if endsSlash s then s.dropLast else s

/-- State of the scanning loop inside Node's posix path.extname
(matchedSlash is represented by endIdx.isSome: the source sets
matchedSlash to false exactly when it records end). -/
structure ExtSt where
  startDot : Option Nat
  startPart : Nat
  endIdx : Option Nat
  preDotState : Int
deriving Repr, DecidableEq

/-- The loop of Node's posix path.extname, scanning indices
i-1, i-2, ..., 0 of s (the fuel argument is the current index + 1).
Mirrors lib/path.js: a '/' seen after a non-separator stops the scan
recording startPart; the first non-separator records end; dots update
startDot / preDotState. -/
def extLoop (s : Str) : Nat → ExtSt → ExtSt
  | 0, st => st
  | i + 1, st =>
    let c := s.getD i ' '
    if c = '/' then
      if st.endIdx.isSome then { st with startPart := i + 1 }
      else extLoop s i st
    else
      let st1 := if st.endIdx.isNone then { st with endIdx := some (i + 1) } else st
      let st2 :=
        if c = '.' then
          match st1.startDot with
          | none => { st1 with startDot := some i }
          | some _ => if st1.preDotState ≠ 1 then { st1 with preDotState := 1 } else st1
        else
          if st1.startDot.isSome then { st1 with preDotState := -1 } else st1
      extLoop s i st2

/-- Node's posix path.extname: the extension of the last path
component, "" for dotfiles, "" and "" for "." and "..". -/
def extname (s : Str) : Str :=
  let st := extLoop s s.length ⟨none, 0, none, 0⟩
  match st.startDot, st.endIdx with
  | some sd, some e =>
    if st.preDotState = 0 ∨ (st.preDotState = 1 ∧ sd + 1 = e ∧ sd = st.startPart + 1) then []
    else (s.take e).drop sd
  | _, _ => []

/-- Accumulation loop of Node's posix path.resolve: arguments are
consumed right to left (the list here is already reversed, ending with
the process working directory), empty strings are skipped, and the
loop stops as soon as an absolute argument has been prepended.
Returns the concatenated string and whether it is rooted. -/
def resolveAccum : Str → List Str → Str × Bool
  | acc, [] => (acc, false)
  | acc, p :: rest =>
    if p.isEmpty then resolveAccum acc rest
    else
      let acc2 := p ++ '/' :: acc
      if p.head? = some '/' then (acc2, true) else resolveAccum acc2 rest

/-- Segment-stack normalization, modelling Node's normalizeString
(posix): empty and "." segments vanish, ".." pops the previous
segment, and when nothing is left ".." is kept only if
allowAboveRoot.  The accumulator holds segments in reverse order. -/
def normStack (ar : Bool) : List Str → List Str → List Str
  | acc, [] => acc.reverse
  | acc, seg :: rest =>
    if seg.isEmpty || seg = ['.'] then normStack ar acc rest
    else if seg = ['.', '.'] then
      match acc with
      | [] => normStack ar (if ar then [seg] else []) rest
      | top :: acc2 =>
        if top = ['.', '.'] then normStack ar (seg :: acc) rest
        else normStack ar acc2 rest
    else normStack ar (seg :: acc) rest

/-- Join segments with '/'. -/
def joinSlash : List Str → Str
  | [] => []
  | [l] => l
  | l :: ls => l ++ '/' :: joinSlash ls

/-- Node's normalizeString (posix), via its segment semantics. -/
def normalizeSegs (ar : Bool) (s : Str) : Str :=
  joinSlash (normStack ar [] (splitChar '/' s))

/-- Node's posix path.resolve(...args).  cwd stands for
process.cwd(), consulted only when no argument is absolute. -/
def resolveArgs (cwd : Str) (args : List Str) : Str :=
  let ra := resolveAccum [] (args.reverse ++ [cwd])
  let res := normalizeSegs (!ra.2) ra.1
  if ra.2 then '/' :: res else if res.isEmpty then ['.'] else res

/-- path.resolve(parentPath, name) as called by both parseTree variants. -/
def resolveP (cwd a b : Str) : Str := resolveArgs cwd [a, b]

/-- One parsed entry, as built by parseTree in src/index.js. -/
structure Node where
  name : Str
  path : Str
  depth : Nat
  isFile : Bool
deriving Repr, DecidableEq

/-- File heuristic of parseTree, variant A (first copy, src/index.js):
isFile = !name.endsWith("/") && (!!path.extname(name) || name.includes(".")). -/
def isFileA (name : Str) : Bool :=
  !endsSlash name && (!(extname name).isEmpty || name.contains '.')

/-- File heuristic of parseTree, variant B (second copy):
isFile = !!path.extname(name). -/
def isFileB (name : Str) : Bool :=
  !(extname name).isEmpty

/-- Node built by variant A: the stored name has one trailing '/'
removed (name.replace(/\/$/, "")). -/
def nodeA (name path : Str) (depth : Nat) : Node :=
  { name := stripTrailingSlash name, path := path, depth := depth, isFile := isFileA name }

/-- Node built by variant B: the label is stored as-is. -/
def nodeB (name path : Str) (depth : Nat) : Node :=
  { name := name, path := path, depth := depth, isFile := isFileB name }

/-- The while loop of both parseTree variants:
while (stack.length > 0 && stack[stack.length-1].depth >= depth) stack.pop().
The stack is represented top-first. -/
def popGE (depth : Nat) : List Node → List Node
  | [] => []
  | n :: rest => if depth ≤ n.depth then popGE depth rest else n :: rest

/-- The per-line loop shared by both parseTree variants, parameterized
by the node constructor (nodeA or nodeB).  For each line: compute the
raw indentation depth and the stripped label; skip the line when the
label is empty; pop stack entries with depth >= current; resolve the
path against the stack top (or baseDir); emit and push the node. -/
def goParse (mk : Str → Str → Nat → Node) (cwd baseDir : Str) :
    List Str → List Node → List Node
  | [], _ => []
  | line :: rest, stack =>
    let depth := lineDepth line
    let name := lineName line
    if name.isEmpty then goParse mk cwd baseDir rest stack
    else
      let stack2 := popGE depth stack
      let parentPath := match stack2 with | [] => baseDir | p :: _ => p.path
      let node := mk name (resolveP cwd parentPath name) depth
      node :: goParse mk cwd baseDir rest (node :: stack2)

/-- text.split("\n").filter((l) => l.trim().length > 0), the line
preprocessing of both parseTree variants. -/
def filteredLines (text : Str) : List Str :=
  (splitChar '\n' text).filter (fun l => !(jsTrim l).isEmpty)

/-- The indentation-unit auto-detection at the top of parseTree
variant A: the minimum positive length of a /^[\s│]+/ match across
the filtered lines, defaulting to 2.  NOTE: variant A computes this
value (lines 42-51 of src/index.js) and then never uses it — depth is
taken as the raw indentation width. -/
def indentUnit (text : Str) : Nat :=
  let m := (filteredLines text).foldl
    (fun u line =>
      let w := (line.takeWhile (fun c => isJsSpace c || c = '│')).length
      if w > 0 && (u = 0 || w < u) then w else u) 0
  if m = 0 then 2 else m

/-- parseTree of variant A (first copy in src/index.js).  cwd models
process.cwd(), consulted by path.resolve only when neither the parent
path nor the label is absolute. -/
def parseA (cwd text baseDir : Str) : List Node :=
  goParse nodeA cwd baseDir (filteredLines text) []

/-- parseTree of variant B (second copy in src/index.js). -/
def parseB (cwd text baseDir : Str) : List Node :=
  goParse nodeB cwd baseDir (filteredLines text) []

/-- The parent path determined by an optional parent node. -/
def parentFrom (baseDir : Str) : Option Node → Str
  | none => baseDir
  | some p => p.path

/-- Specification-side parser used to characterize the stack: the
parent of a line is the most recent previously-emitted node whose
depth is strictly smaller (pre holds the full emission history). -/
def specParse (mk : Str → Str → Nat → Node) (cwd baseDir : Str) :
    List Str → List Node → List Node
  | [], _ => []
  | line :: rest, pre =>
    let depth := lineDepth line
    let name := lineName line
    if name.isEmpty then specParse mk cwd baseDir rest pre
    else
      let parentPath :=
        parentFrom baseDir (pre.reverse.find? (fun p => decide (p.depth < depth)))
      let node := mk name (resolveP cwd parentPath name) depth
      node :: specParse mk cwd baseDir rest (pre ++ [node])

/-- The ancestor stack determined by an emission history: each emitted
node pops entries of depth >= its own and pushes itself. -/
def stackOf (emitted : List Node) : List Node :=
  emitted.foldl (fun st e => e :: popGE e.depth st) []

/-- JavaScript string prefix test a.startsWith(b). -/
def strStarts : Str → Str → Bool
  | _, [] => true
  | [], _ :: _ => false
  | c :: s, d :: p => c = d && strStarts s p

/-- n-fold string repetition, String.prototype.repeat. -/
def repeatStr (s : Str) : Nat → Str
  | 0 => []
  | k + 1 => s ++ repeatStr s k

/-- Indent of Commands.format, variant A: "│   " repeated
Math.max(0, count - 2) times, where count is the number of nodes whose
path is a string prefix of this node's path (truncated subtraction
models the Math.max floor at 0). -/
def fmtIndent (nodes : List Node) (n : Node) : Str :=
  repeatStr (strL "│   ")
    ((nodes.filter (fun p => strStarts n.path p.path)).length - 2)

/-- Line prefix of Commands.format, variant A: the "├── " connector
(after the indent) is omitted when the node path equals
path.resolve(flags.output, n.name). -/
def fmtPre (cwd outDir : Str) (nodes : List Node) (n : Node) : Str :=
  if n.path = resolveP cwd outDir n.name then [] else fmtIndent nodes n ++ strL "├── "

/-- One output line of Commands.format, variant A. -/
def formatLineA (cwd outDir : Str) (nodes : List Node) (n : Node) : Str :=
  fmtPre cwd outDir nodes n ++ n.name

/-- Commands.format, variant A: one line per node. -/
def formatA (cwd outDir : Str) (nodes : List Node) : List Str :=
  nodes.map (formatLineA cwd outDir nodes)

/-- Text written to stdout by a sequence of console.log calls: each
line is followed by a newline. -/
def renderLines : List Str → Str
  | [] => []
  | l :: ls => l ++ '\n' :: renderLines ls

/-- Console output: one constructor per Log helper of src/index.js
(the ANSI color decorations are presentation and are not modelled),
plus plain for bare console.log lines. -/
inductive Msg
  | info (s : Str)
  | success (s : Str)
  | warn (s : Str)
  | error (s : Str)
  | step (s : Str)
  | header (s : Str)
  | plain (s : Str)
deriving Repr, DecidableEq

/-- Filesystem model: files with contents, plus directories.  The
repository mutates the disk only through fs.mkdirSync and
fs.writeFileSync and reads it through fs.existsSync and
fs.readFileSync. -/
structure FS where
  files : List (Str × Str)
  dirs : List Str
deriving Repr, DecidableEq

/-- fs.existsSync: the path is a known file or directory. -/
def FS.existsSync (fs : FS) (p : Str) : Bool :=
  fs.files.any (fun f => f.1 = p) || fs.dirs.contains p

/-- Association-list update used by writeFileSync. -/
def updateAssoc : List (Str × Str) → Str → Str → List (Str × Str)
  | [], p, c => [(p, c)]
  | (q, d) :: rest, p, c =>
    if q = p then (q, c) :: rest else (q, d) :: updateAssoc rest p c

/-- Content lookup for the file table. -/
def lookupFile : List (Str × Str) → Str → Option Str
  | [], _ => none
  | (q, d) :: rest, p => if q = p then some d else lookupFile rest p

/-- fs.writeFileSync(p, c). -/
def FS.writeFileSync (fs : FS) (p c : Str) : FS :=
  { fs with files := updateAssoc fs.files p c }

/-- fs.mkdirSync(p, {recursive: true}): records the directory
(idempotent; intermediate ancestors are not tracked because nothing
in the claims observes them). -/
def FS.mkdirSync (fs : FS) (p : Str) : FS :=
  { fs with dirs := if fs.dirs.contains p then fs.dirs else p :: fs.dirs }

/-- The index-search loop of Node's posix path.dirname: scan indices
i, i-1, ..., 1 for the last '/' that is followed by a non-separator
(the boolean is matchedSlash). -/
def dirnameEnd (p : Str) : Nat → Bool → Option Nat
  | 0, _ => none
  | i + 1, ms =>
    if p.getD (i + 1) ' ' = '/' then
      if ms then dirnameEnd p i ms else some (i + 1)
    else dirnameEnd p i false

/-- Node's posix path.dirname. -/
def dirname (p : Str) : Str :=
  if p.isEmpty then ['.']
  else
    let hasRoot := p.head? = some '/'
    match dirnameEnd p (p.length - 1) true with
    | none => if hasRoot then ['/'] else ['.']
    | some e => if hasRoot && e = 1 then ['/', '/'] else p.take e

/-- One iteration of the nodes.forEach loop in Commands.create
(identical in both variants): directories are created idempotently;
for a file, the parent directory is created, then the file is
touched empty unless it exists and --force is absent, in which case
it is skipped (with a warning only under --verbose). -/
def createStep (force verbose : Bool) (acc : FS × List Msg) (n : Node) : FS × List Msg :=
  if n.isFile then
    let fs1 := acc.1.mkdirSync (dirname n.path)
    if fs1.existsSync n.path && !force then
      (fs1, acc.2 ++ (if verbose then [Msg.warn (strL "Skipped: " ++ n.name)] else []))
    else
      (fs1.writeFileSync n.path [], acc.2 ++ [Msg.step (strL "Created: " ++ n.name)])
  else
    (acc.1.mkdirSync n.path,
     acc.2 ++ (if verbose then [Msg.step (strL "Dir: " ++ n.name)] else []))

/-- Commands.create after the input text has been obtained: parse
against flags.output, print the header, process every node, then
report completion.  Returns the final filesystem and the log. -/
def createCmd (cwd text outDir : Str) (force verbose : Bool) (fs : FS) : FS × List Msg :=
  let nodes := parseA cwd text outDir
  let start := (fs, [Msg.header (strL "🚀 Manifesting Structure: " ++ resolveArgs cwd [outDir])])
  let done := nodes.foldl (createStep force verbose) start
  (done.1, done.2 ++ [Msg.success (strL "Creation complete.")])

/-- Commands.validate after the input text has been obtained:
existence check of every parsed path; on any missing path the error
and the itemized list are printed and the process exits 1, otherwise
a success message is printed and the process later exits 0. -/
def validateCmd (cwd text outDir : Str) (fs : FS) : List Msg × Nat :=
  let nodes := parseA cwd text outDir
  let missing := nodes.filter (fun n => !fs.existsSync n.path)
  if missing.isEmpty then
    ([Msg.header (strL "🔍 Validating Integrity..."), Msg.success (strL "All items present.")], 0)
  else
    (Msg.header (strL "🔍 Validating Integrity...") ::
       Msg.error (strL "Missing " ++ (Nat.repr missing.length).toList ++ strL " items:") ::
       missing.map (fun m => Msg.step m.path), 1)

/-- The truthiness chain flags.input || rawArgs[1] of getInput:
null/undefined and the empty string are falsy. -/
def firstTruthy (a b : Option Str) : Option Str :=
  match a with
  | some s => if s.isEmpty then (match b with
      | some t => if t.isEmpty then none else some t
      | none => none) else some s
  | none => match b with
      | some t => if t.isEmpty then none else some t
      | none => none

/-- getInput of src/index.js: take the --input flag or the first
positional argument; throw when neither is supplied; read the source
as a file when it names an existing path (a directory read throws),
otherwise treat the source text itself as the tree. -/
def getInput (inputFlag arg1 : Option Str) (fs : FS) : Except Str Str :=
  match firstTruthy inputFlag arg1 with
  | none => .error (strL "No input provided. Use -i <file> or a tree string.")
  | some src =>
    if fs.existsSync src then
      match lookupFile fs.files src with
      | some c => .ok c
      | none => .error (strL "EISDIR: illegal operation on a directory, read")
    else .ok src

/-- The command table aliasMap of src/index.js. -/
inductive Cmd
  | create | validate | dryRun | minify | format
deriving Repr, DecidableEq

/-- aliasMap lookup. -/
def aliasLookup (s : Str) : Option Cmd :=
  if s = strL "c" || s = strL "create" then some .create
  else if s = strL "v" || s = strL "validate" then some .validate
  else if s = strL "dr" || s = strL "dry-run" then some .dryRun
  else if s = strL "min" || s = strL "minify" then some .minify
  else if s = strL "fmt" || s = strL "format" then some .format
  else none

/-- The body of main (variant A) for a recognized command: every
handler first obtains the input (which can throw), then runs.  The
result is the final filesystem, the log, and the process exit code;
process.exit(1) in validate is modelled as exit code 1, and a run
that completes without it exits 0. -/
def runCommand (cwd : Str) (c : Cmd) (inputFlag arg1 : Option Str) (outDir : Str)
    (force verbose : Bool) (fs : FS) : Except Str (FS × List Msg × Nat) :=
  match c with
  | .create => do
    let text ← getInput inputFlag arg1 fs
    let r := createCmd cwd text outDir force verbose fs
    .ok (r.1, r.2, 0)
  | .validate => do
    let text ← getInput inputFlag arg1 fs
    let r := validateCmd cwd text outDir fs
    .ok (fs, r.1, r.2)
  | .dryRun => do
    let text ← getInput inputFlag arg1 fs
    let nodes := parseA cwd text outDir
    .ok (fs, Msg.header (strL "🧪 Dry Run Preview:") ::
      nodes.map (fun n => Msg.plain (strL "  " ++
        (if n.isFile then strL "📄" else strL "📁") ++ strL " " ++ n.path)), 0)
  | .minify => do
    let text ← getInput inputFlag arg1 fs
    .ok (fs, (parseA cwd text outDir).map (fun n => Msg.plain n.path), 0)
  | .format => do
    let text ← getInput inputFlag arg1 fs
    let nodes := parseA cwd text outDir
    .ok (fs, (formatA cwd outDir nodes).map Msg.plain, 0)

/-- main of src/index.js (identical try/catch in both variants): an
unrecognized command prints the usage text and exits 0; a thrown
error is caught, printed through Log.error, and — since nothing sets
process.exitCode — the process then exits 0. -/
def mainRun (cwd : Str) (cmdInput : Str) (inputFlag arg1 : Option Str) (outDir : Str)
    (force verbose : Bool) (fs : FS) : FS × List Msg × Nat :=
  match aliasLookup cmdInput with
  | none => (fs, [Msg.plain (strL "usage")], 0)
  | some c =>
    match runCommand cwd c inputFlag arg1 outDir force verbose fs with
    | .ok r => r
    | .error m => (fs, [Msg.error m], 0)

/-! Helper lemmas about the string primitives. -/

theorem splitChar_ne_nil (c : Char) (s : Str) : splitChar c s ≠ [] := by
  induction s with
  | nil => simp [splitChar]
  | cons d rest ih =>
    simp only [splitChar]
    split
    · simp
    · cases h : splitChar c rest with
      | nil => exact absurd h ih
      | cons l ls => simp

theorem mem_splitChar_not (c : Char) (s : Str) :
    ∀ l ∈ splitChar c s, c ∉ l := by
  induction s with
  | nil => intro l hl; simp [splitChar] at hl; simp [hl]
  | cons d rest ih =>
    intro l hl
    simp only [splitChar] at hl
    by_cases hd : d = c
    · simp [hd] at hl
      rcases hl with h | h
      · simp [h]
      · exact ih l h
    · simp only [if_neg hd] at hl
      cases h : splitChar c rest with
      | nil => exact absurd h (splitChar_ne_nil c rest)
      | cons m ms =>
        rw [h] at hl
        rcases List.mem_cons.mp hl with h1 | h1
        · subst h1
          intro hmem
          rcases List.mem_cons.mp hmem with h2 | h2
          · exact hd h2.symm
          · exact ih m (h ▸ List.mem_cons_self m ms) h2
        · exact ih l (h ▸ List.mem_cons_of_mem m h1)

theorem splitChar_append_cons (c : Char) (l r : Str) (hl : c ∉ l) :
    splitChar c (l ++ c :: r) = l :: splitChar c r := by
  induction l with
  | nil => simp [splitChar]
  | cons d rest ih =>
    have hd : d ≠ c := fun h => hl (h ▸ List.mem_cons_self d rest)
    have hrest : c ∉ rest := fun h => hl (List.mem_cons_of_mem d h)
    simp only [List.cons_append, splitChar, if_neg hd, List.append_eq, ih hrest]

theorem splitChar_append_sep (c : Char) (s : Str) :
    splitChar c (s ++ [c]) = splitChar c s ++ [[]] := by
  induction s with
  | nil => simp [splitChar]
  | cons d rest ih =>
    simp only [List.cons_append, splitChar, List.append_eq]
    by_cases hd : d = c
    · simp [hd, ih]
    · simp only [if_neg hd, ih]
      cases h : splitChar c rest with
      | nil => exact absurd h (splitChar_ne_nil c rest)
      | cons m ms => simp

theorem splitChar_renderLines (ls : List Str) (h : ∀ l ∈ ls, '\n' ∉ l) :
    splitChar '\n' (renderLines ls) = ls ++ [[]] := by
  induction ls with
  | nil => simp [renderLines, splitChar]
  | cons l rest ih =>
    have h1 : '\n' ∉ l := h l (List.mem_cons_self l rest)
    have h2 : ∀ m ∈ rest, '\n' ∉ m := fun m hm => h m (List.mem_cons_of_mem l hm)
    simp only [renderLines, splitChar_append_cons '\n' l _ h1, ih h2, List.cons_append]

theorem trimLeft_append_of_spaces (u v : Str) (h : ∀ c ∈ u, isJsSpace c = true) :
    trimLeft (u ++ v) = trimLeft v := by
  induction u with
  | nil => simp
  | cons d rest ih =>
    have hd : isJsSpace d = true := h d (List.mem_cons_self d rest)
    simp only [trimLeft, List.cons_append, List.dropWhile_cons, hd, if_pos]
    exact ih fun c hc => h c (List.mem_cons_of_mem d hc)

theorem mem_trimLeft (s : Str) : ∀ c ∈ trimLeft s, c ∈ s :=
  fun c hc => (List.dropWhile_sublist isJsSpace).subset hc

theorem mem_trimRight (s : Str) : ∀ c ∈ trimRight s, c ∈ s := by
  intro c hc
  simp only [trimRight, List.mem_reverse] at hc
  exact List.mem_reverse.mp ((List.dropWhile_sublist isJsSpace).subset hc)

theorem mem_jsTrim (s : Str) : ∀ c ∈ jsTrim s, c ∈ s :=
  fun c hc => mem_trimLeft s c (mem_trimRight (trimLeft s) c hc)

theorem mem_stripTrailingSlash (s : Str) : ∀ c ∈ stripTrailingSlash s, c ∈ s := by
  intro c hc
  unfold stripTrailingSlash at hc
  split at hc
  · exact (List.dropLast_sublist s).subset hc
  · exact hc

theorem jsTrim_eq_nil_iff (s : Str) :
    jsTrim s = [] ↔ ∀ c ∈ s, isJsSpace c = true := by
  constructor
  · intro h c hc
    have hL : trimRight (trimLeft s) = [] := h
    have h2 : ∀ c ∈ trimLeft s, isJsSpace c = true := by
      intro d hd
      have : (trimLeft s).reverse.dropWhile isJsSpace = [] := by
        simpa [trimRight] using hL
      exact List.dropWhile_eq_nil_iff.mp this d (List.mem_reverse.mpr hd)
    rcases List.mem_append.mp
        ((List.takeWhile_append_dropWhile isJsSpace s) ▸ hc) with h3 | h3
    · exact List.mem_takeWhile_imp h3
    · exact h2 c h3
  · intro h
    have h1 : trimLeft s = [] := List.dropWhile_eq_nil_iff.mpr h
    simp [jsTrim, h1, trimRight, splitChar]

theorem lineName_ne_nil_nonblank (l : Str) (h : ¬ lineName l = []) :
    (jsTrim l).isEmpty = false := by
  have hne : jsTrim l ≠ [] := by
    intro hblank
    apply h
    rw [jsTrim_eq_nil_iff] at hblank
    rw [show lineName l = jsTrim (l.filter (fun c => !isGlyph c)) from rfl,
      jsTrim_eq_nil_iff]
    intro c hc
    exact hblank c (List.mem_filter.mp hc).1
  cases hj : jsTrim l with
  | nil => exact absurd hj hne
  | cons a t => rfl

theorem trimLeft_eq_self_of_jsTrim (s : Str) (h : jsTrim s = s) : trimLeft s = s := by
  have h1 : (trimLeft s).length ≤ s.length :=
    (List.dropWhile_sublist isJsSpace).length_le
  have h2 : (trimRight (trimLeft s)).length ≤ (trimLeft s).length := by
    have hsub := (List.dropWhile_sublist (l := (trimLeft s).reverse) isJsSpace).length_le
    simpa [trimRight] using hsub
  have h3 : s.length ≤ (trimLeft s).length := by
    calc s.length = (jsTrim s).length := by rw [h]
    _ ≤ (trimLeft s).length := h2
  exact (List.dropWhile_suffix isJsSpace).eq_of_length (Nat.le_antisymm h1 h3)

theorem jsTrim_spaces_append (u s : Str) (hu : ∀ c ∈ u, isJsSpace c = true)
    (hs : jsTrim s = s) : jsTrim (u ++ s) = s := by
  have h1 : trimLeft (u ++ s) = trimLeft s := trimLeft_append_of_spaces u s hu
  calc jsTrim (u ++ s) = trimRight (trimLeft (u ++ s)) := rfl
  _ = trimRight (trimLeft s) := by rw [h1]
  _ = jsTrim s := rfl
  _ = s := hs

/-! Helper lemmas about the parser loop. -/

theorem goParse_names (cwd b : Str) (lines : List Str) (stack : List Node) :
    (goParse nodeA cwd b lines stack).map Node.name =
      (lines.filter (fun l => !(lineName l).isEmpty)).map
        (fun l => stripTrailingSlash (lineName l)) := by
  induction lines generalizing stack with
  | nil => simp [goParse]
  | cons line rest ih =>
    simp only [goParse, List.filter_cons]
    by_cases h : (lineName line).isEmpty
    · simp only [h, if_true, Bool.not_true, ite_true, Bool.false_eq_true, if_false]
      exact ih stack
    · simp only [h, Bool.not_false, Bool.false_eq_true, ite_false, if_true,
        List.map_cons, ite_true]
      rw [ih]
      simp [nodeA]

theorem goParse_skip (mk : Str → Str → Nat → Node) (cwd b : Str)
    (ls1 ls2 : List Str) (e : Str) (st : List Node) (he : lineName e = []) :
    goParse mk cwd b (ls1 ++ e :: ls2) st = goParse mk cwd b (ls1 ++ ls2) st := by
  induction ls1 generalizing st with
  | nil => simp [goParse, he]
  | cons l rest ih =>
    simp only [List.cons_append, goParse]
    by_cases h : (lineName l).isEmpty
    · simp [h, ih]
    · simp [h, ih]

/-! Helper lemmas about the ancestor stack. -/

theorem popGE_popGE (d d' : Nat) (st : List Node) (h : d ≤ d') :
    popGE d (popGE d' st) = popGE d st := by
  induction st with
  | nil => rfl
  | cons n rest ih =>
    simp only [popGE]
    by_cases h1 : d' ≤ n.depth
    · rw [if_pos h1, ih, if_pos (Nat.le_trans h h1)]
    · rw [if_neg h1]
      simp [popGE]

theorem stackOf_append (pre : List Node) (e : Node) :
    stackOf (pre ++ [e]) = e :: popGE e.depth (stackOf pre) := by
  simp [stackOf, List.foldl_append]

theorem popGE_stackOf_head (pre : List Node) (d : Nat) :
    (popGE d (stackOf pre)).head? =
      pre.reverse.find? (fun p => decide (p.depth < d)) := by
  induction pre using List.reverseRecOn with
  | nil => simp [stackOf, popGE]
  | append_singleton pre e ih =>
    rw [stackOf_append, List.reverse_append]
    simp only [List.reverse_singleton, List.singleton_append, List.find?_cons]
    by_cases h : d ≤ e.depth
    · have hnot : (decide (e.depth < d)) = false := by
        simp [Nat.not_lt.mpr h]
      rw [hnot]
      simp only [popGE, if_pos h, popGE_popGE d e.depth _ h]
      exact ih
    · have hlt : e.depth < d := Nat.lt_of_not_le (fun hc => h hc)
      have hyes : (decide (e.depth < d)) = true := by simp [hlt]
      rw [hyes]
      simp [popGE, Nat.not_le.mpr hlt]

theorem goParse_eq_specParse (mk : Str → Str → Nat → Node)
    (hmk : ∀ nm p d, (mk nm p d).depth = d) (cwd b : Str) (lines : List Str) :
    ∀ pre : List Node,
      goParse mk cwd b lines (stackOf pre) = specParse mk cwd b lines pre := by
  induction lines with
  | nil => intro pre; rfl
  | cons line rest ih =>
    intro pre
    simp only [goParse, specParse]
    by_cases h : (lineName line).isEmpty
    · simp only [h, if_true, ite_true]
      exact ih pre
    · simp only [h, Bool.false_eq_true, ite_false, if_false]
      have hpar :
          (match popGE (lineDepth line) (stackOf pre) with
            | [] => b
            | p :: _ => p.path) =
          parentFrom b (pre.reverse.find?
            (fun p => decide (p.depth < lineDepth line))) := by
        rw [← popGE_stackOf_head]
        cases popGE (lineDepth line) (stackOf pre) with
        | nil => rfl
        | cons p tl => rfl
      rw [hpar]
      have hstack :
          (mk (lineName line)
              (resolveP cwd (parentFrom b (pre.reverse.find?
                (fun p => decide (p.depth < lineDepth line)))) (lineName line))
              (lineDepth line)) :: popGE (lineDepth line) (stackOf pre) =
          stackOf (pre ++ [mk (lineName line)
              (resolveP cwd (parentFrom b (pre.reverse.find?
                (fun p => decide (p.depth < lineDepth line)))) (lineName line))
              (lineDepth line)]) := by
        rw [stackOf_append, hmk]
      rw [hstack, ih]

theorem parseA_eq_specParse (cwd text b : Str) :
    parseA cwd text b = specParse nodeA cwd b (filteredLines text) [] := by
  have h := goParse_eq_specParse nodeA (fun nm p d => rfl) cwd b (filteredLines text) []
  simpa [parseA, stackOf] using h

/-! Helper lemmas about path resolution and trailing separators. -/

theorem resolveAccum_append_tail (lst : List Str) :
    ∀ acc t : Str, resolveAccum (acc ++ t) lst =
      ((resolveAccum acc lst).1 ++ t, (resolveAccum acc lst).2) := by
  induction lst with
  | nil => intro acc t; rfl
  | cons p rest ih =>
    intro acc t
    simp only [resolveAccum]
    by_cases h : p.isEmpty
    · simp only [h, if_true, ite_true]
      exact ih acc t
    · simp only [h, Bool.false_eq_true, ite_false, if_false]
      by_cases h2 : p.head? = some '/'
      · simp [h2, List.append_assoc]
      · simp only [h2, if_false, ite_false]
        rw [show p ++ '/' :: (acc ++ t) = (p ++ '/' :: acc) ++ t by simp,
          ih (p ++ '/' :: acc) t]

theorem normStack_append_nil (ar : Bool) (segs : List Str) :
    ∀ acc, normStack ar acc (segs ++ [[]]) = normStack ar acc segs := by
  induction segs with
  | nil => intro acc; rfl
  | cons seg rest ih =>
    intro acc
    simp only [List.cons_append, normStack]
    by_cases h1 : seg.isEmpty || seg = ['.']
    · simp only [h1, if_true, ite_true]
      exact ih acc
    · simp only [h1, Bool.false_eq_true, ite_false, if_false]
      by_cases h2 : seg = ['.', '.']
      · simp only [h2, if_true, ite_true]
        cases acc with
        | nil => exact ih _
        | cons top acc2 =>
          by_cases h3 : top = ['.', '.']
          · simp only [h3, if_true, ite_true]
            exact ih _
          · simp only [h3, if_false, ite_false]
            exact ih _
      · simp only [h2, if_false, ite_false]
        exact ih _

theorem normalizeSegs_append_slash (ar : Bool) (s : Str) :
    normalizeSegs ar (s ++ ['/']) = normalizeSegs ar s := by
  rw [normalizeSegs, splitChar_append_sep, normStack_append_nil, normalizeSegs]

theorem resolveAccum_slash_head (l' : Str) (rest : List Str) (h : l' ≠ []) :
    resolveAccum [] ((l' ++ ['/']) :: rest) =
      ((resolveAccum [] (l' :: rest)).1 ++ ['/'], (resolveAccum [] (l' :: rest)).2) := by
  have hne1 : (l' ++ ['/']).isEmpty = false := by simp
  have hne2 : l'.isEmpty = false := by simp [h]
  have hhead : (l' ++ ['/']).head? = l'.head? := by
    cases l' with
    | nil => exact absurd rfl h
    | cons a t => rfl
  simp only [resolveAccum, hne1, hne2, Bool.false_eq_true, ite_false, if_false, hhead]
  by_cases h2 : l'.head? = some '/'
  · simp [h2]
  · simp only [h2, if_false, ite_false]
    rw [show (l' ++ ['/']) ++ '/' :: ([] : Str) = (l' ++ '/' :: ([] : Str)) ++ ['/'] by simp,
      resolveAccum_append_tail]

theorem resolveArgs_strip_slash (cwd p l' : Str) (h : l' ≠ []) :
    resolveArgs cwd [p, l' ++ ['/']] = resolveArgs cwd [p, l'] := by
  simp only [resolveArgs, List.reverse_cons, List.reverse_nil, List.nil_append,
    List.cons_append, List.append_assoc, List.singleton_append]
  rw [resolveAccum_slash_head l' _ h, normalizeSegs_append_slash]

theorem resolveP_stripSlash (cwd p l : Str) (h : stripTrailingSlash l ≠ []) :
    resolveP cwd p l = resolveP cwd p (stripTrailingSlash l) := by
  by_cases he : endsSlash l = true
  · induction l using List.reverseRecOn with
    | nil => simp [endsSlash] at he
    | append_singleton l' a _ =>
      have ha : a = '/' := by
        have : (l' ++ [a]).getLast? = some a := List.getLast?_concat l'
        simpa [endsSlash, this] using he
      subst ha
      have hst : stripTrailingSlash (l' ++ ['/']) = l' := by
        simp [stripTrailingSlash, endsSlash, List.getLast?_concat, List.dropLast_concat]
      rw [hst] at h ⊢
      exact resolveArgs_strip_slash cwd p l' h
  · simp [stripTrailingSlash, he]

/-! Locating the nearest preceding node of strictly smaller depth. -/

theorem find?_nearest (l : List Node) (d : Nat) (j : Nat) (hj : j < l.length)
    (hpj : l[j].depth < d)
    (hrest : ∀ m (hm : m < l.length), j < m → ¬(l[m].depth < d)) :
    l.reverse.find? (fun p => decide (p.depth < d)) = some l[j] := by
  have h1 : l.reverse = (l.drop (j+1)).reverse ++ (l.take (j+1)).reverse := by
    rw [← List.reverse_append, List.take_append_drop]
  rw [h1, List.find?_append]
  have h2 : (l.drop (j+1)).reverse.find? (fun p => decide (p.depth < d)) = none := by
    rw [List.find?_eq_none]
    intro x hx
    rw [List.mem_reverse] at hx
    obtain ⟨k, hk, hxe⟩ := List.mem_iff_getElem.mp hx
    have hkl : j + 1 + k < l.length := by
      have hlen : k < l.length - (j + 1) := by simpa [List.length_drop] using hk
      omega
    have hxv : x = l[j+1+k] := by
      rw [← hxe, List.getElem_drop]
    rw [hxv]
    simp only [decide_eq_true_eq]
    exact hrest (j+1+k) hkl (by omega)
  have h3 : (l.take (j+1)).reverse = l[j] :: (l.take j).reverse := by
    rw [List.take_succ, List.getElem?_eq_getElem hj]
    simp
  rw [h2, h3]
  simp [List.find?_cons, hpj]

theorem specParse_path (cwd b : Str) (lines : List Str) :
    ∀ (pre : List Node) (i : Nat)
      (hi : i < (specParse nodeA cwd b lines pre).length),
      ((specParse nodeA cwd b lines pre)[i]).name ≠ [] →
      ((specParse nodeA cwd b lines pre)[i]).path =
        resolveP cwd
          (parentFrom b ((pre ++ (specParse nodeA cwd b lines pre).take i).reverse.find?
            (fun p => decide (p.depth < ((specParse nodeA cwd b lines pre)[i]).depth))))
          ((specParse nodeA cwd b lines pre)[i]).name := by
  induction lines with
  | nil =>
    intro pre i hi
    simp [specParse] at hi
  | cons line rest ih =>
    intro pre i hi hname
    by_cases h : (lineName line).isEmpty
    · simp only [specParse, h, if_true, ite_true] at hi hname ⊢
      exact ih pre i hi hname
    · simp only [specParse, h, Bool.false_eq_true, ite_false, if_false] at hi hname ⊢
      cases i with
      | zero =>
        simp only [List.getElem_cons_zero, List.take_zero, List.append_nil] at hname ⊢
        exact resolveP_stripSlash cwd
          (parentFrom b (List.find? (fun p => decide (p.depth < lineDepth line)) pre.reverse))
          (lineName line) hname
      | succ i2 =>
        simp only [List.getElem_cons_succ, List.take_succ_cons] at hname ⊢
        have hres := ih (pre ++ [nodeA (lineName line)
            (resolveP cwd (parentFrom b (List.find?
              (fun p => decide (p.depth < lineDepth line)) pre.reverse))
              (lineName line)) (lineDepth line)]) i2 (by simpa using hi) hname
        simpa only [List.append_assoc, List.singleton_append] using hres

/-- C5 spine: in parseA output, a node's path is resolved against the
most recent preceding node of strictly smaller depth (baseDir when
there is none). -/
theorem parseA_path_spec (cwd text b : Str) (i : Nat)
    (hi : i < (parseA cwd text b).length)
    (hname : ((parseA cwd text b)[i]).name ≠ []) :
    ((parseA cwd text b)[i]).path =
      resolveP cwd
        (parentFrom b (((parseA cwd text b).take i).reverse.find?
          (fun p => decide (p.depth < ((parseA cwd text b)[i]).depth))))
        ((parseA cwd text b)[i]).name := by
  have he := parseA_eq_specParse cwd text b
  revert hi hname
  rw [he]
  intro hi hname
  have h := specParse_path cwd b (filteredLines text) [] i hi hname
  simpa only [List.nil_append] using h

/-! Agreement of the two parser variants on path and depth. -/

theorem popGE_map_pd (d : Nat) :
    ∀ stA stB : List Node,
      stA.map (fun n => (n.path, n.depth)) = stB.map (fun n => (n.path, n.depth)) →
      (popGE d stA).map (fun n => (n.path, n.depth)) =
        (popGE d stB).map (fun n => (n.path, n.depth)) := by
  intro stA
  induction stA with
  | nil =>
    intro stB h
    have : stB = [] := by
      cases stB with
      | nil => rfl
      | cons x xs => simp at h
    simp [this]
  | cons a as ih =>
    intro stB h
    cases stB with
    | nil => simp at h
    | cons x xs =>
      simp only [List.map_cons, List.cons.injEq] at h
      have hdep : a.depth = x.depth := congrArg Prod.snd h.1
      have hpath : a.path = x.path := congrArg Prod.fst h.1
      simp only [popGE, ← hdep]
      by_cases hle : d ≤ a.depth
      · rw [if_pos hle, if_pos hle]
        exact ih xs h.2
      · rw [if_neg hle, if_neg hle]
        simp only [List.map_cons, h.1, h.2]

theorem goParse_AB (cwd b : Str) (lines : List Str) :
    ∀ stA stB : List Node,
      stA.map (fun n => (n.path, n.depth)) = stB.map (fun n => (n.path, n.depth)) →
      (goParse nodeA cwd b lines stA).map (fun n => (n.path, n.depth)) =
        (goParse nodeB cwd b lines stB).map (fun n => (n.path, n.depth)) := by
  induction lines with
  | nil => intro stA stB _; rfl
  | cons line rest ih =>
    intro stA stB h
    simp only [goParse]
    by_cases he : (lineName line).isEmpty
    · simp only [he, if_true, ite_true]
      exact ih stA stB h
    · simp only [he, Bool.false_eq_true, ite_false, if_false]
      have hpop := popGE_map_pd (lineDepth line) stA stB h
      have hpar :
          (match popGE (lineDepth line) stA with | [] => b | p :: _ => p.path) =
          (match popGE (lineDepth line) stB with | [] => b | p :: _ => p.path) := by
        cases hA : popGE (lineDepth line) stA with
        | nil =>
          cases hB : popGE (lineDepth line) stB with
          | nil => rfl
          | cons y ys => rw [hA, hB] at hpop; simp at hpop
        | cons p ps =>
          cases hB : popGE (lineDepth line) stB with
          | nil => rw [hA, hB] at hpop; simp at hpop
          | cons y ys =>
            rw [hA, hB] at hpop
            simp only [List.map_cons, List.cons.injEq] at hpop
            exact congrArg Prod.fst hpop.1
      rw [hpar]
      simp only [List.map_cons]
      rw [List.cons_eq_cons]
      refine ⟨rfl, ?_⟩
      apply ih
      rw [List.map_cons, List.map_cons, hpop]
      rfl

/-- C10 (amended): for every input text, base directory and working
directory, the two parseTree variants emit the same number of nodes
in the same order with identical resolved paths and depths; they
differ only in stored name and file classification. -/
theorem parseA_parseB_path_depth (cwd text b : Str) :
    (parseA cwd text b).map (fun n => (n.path, n.depth)) =
      (parseB cwd text b).map (fun n => (n.path, n.depth)) :=
  goParse_AB cwd b (filteredLines text) [] [] rfl

/-! Round trip through the formatter: name preservation. -/

theorem mem_repeatStr (s : Str) (k : Nat) : ∀ c ∈ repeatStr s k, c ∈ s := by
  induction k with
  | zero => intro c hc; simp [repeatStr] at hc
  | succ k2 ih =>
    intro c hc
    rcases List.mem_append.mp hc with h | h
    · exact h
    · exact ih c h

theorem fmtPre_chars (cwd outDir : Str) (ns : List Node) (n : Node) :
    ∀ c ∈ fmtPre cwd outDir ns n, isGlyph c = true ∨ c = ' ' := by
  intro c hc
  unfold fmtPre at hc
  split at hc
  · simp at hc
  · rcases List.mem_append.mp hc with h | h
    · have hmem := mem_repeatStr (strL "│   ") _ c h
      have hor : c = '│' ∨ c = ' ' := by simpa [strL] using hmem
      rcases hor with h1 | h1
      · left; rw [h1]; decide
      · right; exact h1
    · have hor : c = '├' ∨ c = '─' ∨ c = ' ' := by simpa [strL] using h
      rcases hor with h1 | h1 | h1
      · left; rw [h1]; decide
      · left; rw [h1]; decide
      · right; exact h1

theorem parseA_name_mem (cwd text b : Str) (n : Node) (hn : n ∈ parseA cwd text b) :
    ∃ l ∈ filteredLines text, n.name = stripTrailingSlash (lineName l) := by
  have hmap := goParse_names cwd b (filteredLines text) []
  have hmem : n.name ∈ (parseA cwd text b).map Node.name := List.mem_map_of_mem Node.name hn
  rw [show (parseA cwd text b).map Node.name =
      (goParse nodeA cwd b (filteredLines text) []).map Node.name from rfl, hmap] at hmem
  obtain ⟨l, hl, hle⟩ := List.mem_map.mp hmem
  exact ⟨l, List.mem_of_mem_filter hl, hle.symm⟩

theorem parseA_name_clean (cwd text b : Str) (n : Node) (hn : n ∈ parseA cwd text b) :
    ∀ c ∈ n.name, isGlyph c = false ∧ c ≠ '\n' := by
  obtain ⟨l, hl, hname⟩ := parseA_name_mem cwd text b n hn
  intro c hc
  rw [hname] at hc
  have h1 : c ∈ lineName l := mem_stripTrailingSlash _ c hc
  have h2 : c ∈ l.filter (fun c => !isGlyph c) := mem_jsTrim _ c h1
  have h3 := List.mem_filter.mp h2
  constructor
  · simpa using h3.2
  · have h4 : l ∈ splitChar '\n' text := List.mem_of_mem_filter hl
    have h5 := mem_splitChar_not '\n' text l h4
    intro hcn
    exact h5 (hcn ▸ h3.1)

theorem lineName_formatLineA (cwd outDir : Str) (ns : List Node) (n : Node)
    (htrim : jsTrim n.name = n.name)
    (hglyph : ∀ c ∈ n.name, isGlyph c = false) :
    lineName (formatLineA cwd outDir ns n) = n.name := by
  unfold formatLineA lineName
  rw [List.filter_append]
  have hname : (n.name.filter (fun c => !isGlyph c)) = n.name :=
    List.filter_eq_self.mpr (fun c hc => by simp [hglyph c hc])
  rw [hname]
  apply jsTrim_spaces_append
  · intro c hc
    have h1 := List.mem_filter.mp hc
    rcases fmtPre_chars cwd outDir ns n c h1.1 with h2 | h2
    · rw [h2] at h1; simp at h1
    · subst h2; rfl
  · exact htrim

/-- C4 (amended): re-parsing the formatter's rendering of a parse
preserves the stored name sequence (hence also the node count),
provided every stored name is nonempty, already trimmed, and has no
trailing separator; depth and kind are not preserved in general. -/
theorem reparse_format_names (cwd text b cwd2 b2 outF : Str)
    (H : ∀ n ∈ parseA cwd text b,
      n.name ≠ [] ∧ jsTrim n.name = n.name ∧ endsSlash n.name = false) :
    (parseA cwd2 (renderLines (formatA cwd outF (parseA cwd text b))) b2).map Node.name =
      (parseA cwd text b).map Node.name := by
  have hlines : ∀ n ∈ parseA cwd text b, lineName (formatLineA cwd outF (parseA cwd text b) n) = n.name := by
    intro n hn
    exact lineName_formatLineA cwd outF _ n (H n hn).2.1
      (fun c hc => (parseA_name_clean cwd text b n hn c hc).1)
  have hnl : ∀ l ∈ formatA cwd outF (parseA cwd text b), '\n' ∉ l := by
    intro l hl
    obtain ⟨n, hn, hle⟩ := List.mem_map.mp hl
    rw [← hle]
    intro hmem
    rcases List.mem_append.mp hmem with h | h
    · rcases fmtPre_chars cwd outF _ n '\n' h with h2 | h2
      · simp [isGlyph] at h2
      · simp at h2
    · exact (parseA_name_clean cwd text b n hn '\n' h).2 rfl
  have hsplit : splitChar '\n' (renderLines (formatA cwd outF (parseA cwd text b))) =
      formatA cwd outF (parseA cwd text b) ++ [[]] :=
    splitChar_renderLines _ hnl
  have hfl : filteredLines (renderLines (formatA cwd outF (parseA cwd text b))) =
      formatA cwd outF (parseA cwd text b) := by
    rw [filteredLines, hsplit, List.filter_append]
    have h1 : ([[]] : List Str).filter (fun l => !(jsTrim l).isEmpty) = [] := rfl
    rw [h1, List.append_nil]
    apply List.filter_eq_self.mpr
    intro l hl
    obtain ⟨n, hn, hle⟩ := List.mem_map.mp hl
    have hln : lineName l = n.name := by rw [← hle]; exact hlines n hn
    have hne : ¬ lineName l = [] := by rw [hln]; exact (H n hn).1
    simpa using lineName_ne_nil_nonblank l hne
  have hmap := goParse_names cwd2 b2
    (filteredLines (renderLines (formatA cwd outF (parseA cwd text b)))) []
  rw [show (parseA cwd2 (renderLines (formatA cwd outF (parseA cwd text b))) b2).map Node.name =
      (goParse nodeA cwd2 b2
        (filteredLines (renderLines (formatA cwd outF (parseA cwd text b)))) []).map Node.name
      from rfl, hmap, hfl]
  have hkeep : (formatA cwd outF (parseA cwd text b)).filter
      (fun l => !(lineName l).isEmpty) = formatA cwd outF (parseA cwd text b) := by
    apply List.filter_eq_self.mpr
    intro l hl
    obtain ⟨n, hn, hle⟩ := List.mem_map.mp hl
    have hln : lineName l = n.name := by rw [← hle]; exact hlines n hn
    simp [hln, (H n hn).1]
  rw [hkeep, formatA, List.map_map]
  apply List.map_congr_left
  intro n hn
  have h1 : lineName (formatLineA cwd outF (parseA cwd text b) n) = n.name := hlines n hn
  simp only [Function.comp_apply, h1]
  simp [stripTrailingSlash, (H n hn).2.2]

/-! Helper lemmas for the create command. -/

theorem updateAssoc_any (l : List (Str × Str)) (p c q : Str)
    (h : (l.any (fun f => f.1 = q)) = true) :
    ((updateAssoc l p c).any (fun f => f.1 = q)) = true := by
  induction l with
  | nil => simp at h
  | cons f rest ih =>
    obtain ⟨g, d⟩ := f
    simp only [updateAssoc]
    by_cases hg : g = p
    · rw [if_pos hg]
      simp only [List.any_cons] at h ⊢
      rcases Bool.or_eq_true_iff.mp h with h1 | h1
      · exact Bool.or_eq_true_iff.mpr (Or.inl h1)
      · exact Bool.or_eq_true_iff.mpr (Or.inr h1)
    · rw [if_neg hg]
      simp only [List.any_cons] at h ⊢
      rcases Bool.or_eq_true_iff.mp h with h1 | h1
      · exact Bool.or_eq_true_iff.mpr (Or.inl h1)
      · exact Bool.or_eq_true_iff.mpr (Or.inr (ih h1))

theorem updateAssoc_lookup_ne (l : List (Str × Str)) (p c q : Str) (h : p ≠ q) :
    lookupFile (updateAssoc l p c) q = lookupFile l q := by
  induction l with
  | nil =>
    simp only [updateAssoc, lookupFile]
    rw [if_neg h]
  | cons f rest ih =>
    obtain ⟨g, d⟩ := f
    simp only [updateAssoc]
    by_cases hg : g = p
    · rw [if_pos hg]
      simp only [lookupFile]
      by_cases hq : g = q
      · exact absurd (hg.symm.trans hq) h
      · rw [if_neg hq, if_neg hq]
    · rw [if_neg hg]
      simp only [lookupFile]
      by_cases hq : g = q
      · rw [if_pos hq, if_pos hq]
      · rw [if_neg hq, if_neg hq, ih]

theorem lookupFile_any (l : List (Str × Str)) (q v : Str)
    (h : lookupFile l q = some v) : (l.any (fun f => f.1 = q)) = true := by
  induction l with
  | nil => simp [lookupFile] at h
  | cons f rest ih =>
    obtain ⟨g, d⟩ := f
    simp only [lookupFile] at h
    by_cases hq : g = q
    · simp [List.any_cons, hq]
    · rw [if_neg hq] at h
      simp [List.any_cons, ih h]

theorem existsSync_mkdir (fs : FS) (p q : Str) (h : fs.existsSync q = true) :
    (fs.mkdirSync p).existsSync q = true := by
  simp only [FS.existsSync, FS.mkdirSync] at h ⊢
  rcases Bool.or_eq_true_iff.mp h with h1 | h1
  · exact Bool.or_eq_true_iff.mpr (Or.inl h1)
  · refine Bool.or_eq_true_iff.mpr (Or.inr ?_)
    split
    · exact h1
    · simp only [List.contains_cons, Bool.or_eq_true]
      right
      exact h1

theorem existsSync_write (fs : FS) (p c q : Str) (h : fs.existsSync q = true) :
    (fs.writeFileSync p c).existsSync q = true := by
  simp only [FS.existsSync, FS.writeFileSync] at h ⊢
  rcases Bool.or_eq_true_iff.mp h with h1 | h1
  · exact Bool.or_eq_true_iff.mpr (Or.inl (updateAssoc_any fs.files p c q h1))
  · exact Bool.or_eq_true_iff.mpr (Or.inr h1)

theorem createStep_exists_mono (force verbose : Bool) (acc : FS × List Msg) (n : Node)
    (q : Str) (h : acc.1.existsSync q = true) :
    (createStep force verbose acc n).1.existsSync q = true := by
  unfold createStep
  by_cases hf : n.isFile
  · simp only [hf, if_true, ite_true]
    have h1 := existsSync_mkdir acc.1 (dirname n.path) q h
    split
    · exact h1
    · exact existsSync_write _ n.path [] q h1
  · simp only [hf, Bool.false_eq_true, ite_false, if_false]
    exact existsSync_mkdir acc.1 n.path q h

theorem createStep_lookup (verbose : Bool) (acc : FS × List Msg) (n : Node)
    (q v : Str) (h : lookupFile acc.1.files q = some v) :
    lookupFile (createStep false verbose acc n).1.files q = some v := by
  unfold createStep
  by_cases hf : n.isFile
  · simp only [hf, if_true, ite_true]
    have hfiles : (acc.1.mkdirSync (dirname n.path)).files = acc.1.files := rfl
    split
    · exact hfiles ▸ h
    · rename_i hcond
      simp only [FS.writeFileSync, hfiles]
      by_cases hpq : n.path = q
      · exfalso
        apply hcond
        have hany : (acc.1.files.any (fun f => f.1 = n.path)) = true :=
          hpq ▸ lookupFile_any acc.1.files q v h
        have hex : (acc.1.mkdirSync (dirname n.path)).existsSync n.path = true := by
          simp only [FS.existsSync, FS.mkdirSync]
          exact Bool.or_eq_true_iff.mpr (Or.inl hany)
        simp [hex]
      · rw [updateAssoc_lookup_ne _ _ _ _ hpq]
        exact h
  · simp only [hf, Bool.false_eq_true, ite_false, if_false]
    exact h

theorem createStep_log (force verbose : Bool) (acc : FS × List Msg) (n : Node) :
    ∃ t, (createStep force verbose acc n).2 = acc.2 ++ t := by
  unfold createStep
  by_cases hf : n.isFile
  · simp only [hf, if_true, ite_true]
    split
    · exact ⟨_, rfl⟩
    · exact ⟨_, rfl⟩
  · simp only [hf, Bool.false_eq_true, ite_false, if_false]
    exact ⟨_, rfl⟩

theorem createFold_log (force verbose : Bool) (nodes : List Node) :
    ∀ acc, ∃ t, (nodes.foldl (createStep force verbose) acc).2 = acc.2 ++ t := by
  induction nodes with
  | nil => intro acc; exact ⟨[], by simp⟩
  | cons n rest ih =>
    intro acc
    obtain ⟨u, hu⟩ := createStep_log force verbose acc n
    obtain ⟨t, ht⟩ := ih (createStep force verbose acc n)
    exact ⟨u ++ t, by rw [List.foldl_cons, ht, hu, List.append_assoc]⟩

theorem createFold_lookup (verbose : Bool) (nodes : List Node) :
    ∀ acc (q v : Str), lookupFile acc.1.files q = some v →
      lookupFile ((nodes.foldl (createStep false verbose) acc).1).files q = some v := by
  induction nodes with
  | nil => intro acc q v h; exact h
  | cons n rest ih =>
    intro acc q v h
    exact ih _ q v (createStep_lookup verbose acc n q v h)

theorem createFold_warn (nodes : List Node) :
    ∀ acc (n : Node), n ∈ nodes → n.isFile = true → acc.1.existsSync n.path = true →
      Msg.warn (strL "Skipped: " ++ n.name) ∈ (nodes.foldl (createStep false true) acc).2 := by
  induction nodes with
  | nil => intro acc n h; simp at h
  | cons m rest ih =>
    intro acc n hmem hfile hex
    rcases List.mem_cons.mp hmem with h1 | h1
    · subst h1
      have hstep : Msg.warn (strL "Skipped: " ++ n.name) ∈ (createStep false true acc n).2 := by
        unfold createStep
        simp only [hfile, if_true, ite_true]
        have hex1 := existsSync_mkdir acc.1 (dirname n.path) n.path hex
        rw [if_pos (by simp [hex1])]
        simp
      obtain ⟨t, ht⟩ := createFold_log false true rest (createStep false true acc n)
      rw [List.foldl_cons, ht]
      exact List.mem_append.mpr (Or.inl hstep)
    · exact ih _ n h1 hfile (createStep_exists_mono false true acc m n.path hex)

/-! Claim theorems. -/

/-- C1: evaluation of parseTree (variant A) at the specified scenario
with baseDir /work.  The four nodes come out in input order with the
claimed paths and kinds, but the depth fields are the raw leading
widths 0, 2, 4, 2 — not the normalized levels 0, 1, 2, 1 the claim
states (the auto-detected indentUnit is computed and never applied). -/
theorem parseTree_scenario_eval :
    parseA (strL "/cwd") (strL "app/\n  src/\n    index.js\n  README.md") (strL "/work") =
      [⟨strL "app", strL "/work/app", 0, false⟩,
       ⟨strL "src", strL "/work/app/src", 2, false⟩,
       ⟨strL "index.js", strL "/work/app/src/index.js", 4, true⟩,
       ⟨strL "README.md", strL "/work/app/README.md", 2, true⟩] := by decide

/-- C2 counterexample: in parseTree variant B the label my.app/,
which ends with the path separator, is classified as a File
(isFile = true), because the classification is !!path.extname(name)
and extname("my.app/") = ".app"; the trailing '/' does not override
the dot heuristic there. -/
theorem parseTree_B_trailing_slash_file :
    parseB (strL "/cwd") (strL "my.app/") (strL "/work") =
      [⟨strL "my.app/", strL "/work/my.app", 0, true⟩] := by decide

/-- C2 (amended): in parseTree variant A a label ending in '/' always
yields a Directory node, whatever else the label contains. -/
theorem nodeA_trailing_slash_directory (name path : Str) (depth : Nat)
    (h : endsSlash name = true) : (nodeA name path depth).isFile = false := by
  simp only [nodeA, isFileA, h, Bool.not_true, Bool.false_and]

/-- Witness for C2: the dotted label my.app/ is a Directory in variant A. -/
theorem nodeA_trailing_slash_directory_witness :
    (nodeA (strL "my.app/") (strL "/work/my.app") 0).isFile = false :=
  nodeA_trailing_slash_directory (strL "my.app/") (strL "/work/my.app") 0 (by decide)

/-- C3: running a command with no input source makes getInput throw;
main catches the error and prints it through Log.error, but nothing
sets a non-zero exit code, so the process exits 0 after reporting the
error — contradicting the spec requirement. -/
theorem main_reports_error_and_exits_zero :
    mainRun (strL "/cwd") (strL "create") none none (strL ".") false false ⟨[], []⟩ =
      (⟨[], []⟩, [Msg.error (strL "No input provided. Use -i <file> or a tree string.")], 0) := by
  decide

/-- C4 counterexample: for the well-formed two-space-indented tree
"my.app/\n  index.js", parsing, formatting, and re-parsing changes
both the depth sequence (0,2 becomes 0,4) and the kind sequence
(my.app/ was a Directory, the re-parse classifies the slash-stripped
label my.app as a File), so the round-trip law fails as stated. -/
theorem format_roundtrip_depth_kind_cex :
    ((parseA (strL "/cwd")
        (renderLines (formatA (strL "/cwd") (strL "/work")
          (parseA (strL "/cwd") (strL "my.app/\n  index.js") (strL "/work"))))
        (strL "/work")).map Node.depth ≠
      (parseA (strL "/cwd") (strL "my.app/\n  index.js") (strL "/work")).map Node.depth)
    ∧ ((parseA (strL "/cwd")
        (renderLines (formatA (strL "/cwd") (strL "/work")
          (parseA (strL "/cwd") (strL "my.app/\n  index.js") (strL "/work"))))
        (strL "/work")).map Node.isFile ≠
      (parseA (strL "/cwd") (strL "my.app/\n  index.js") (strL "/work")).map Node.isFile) := by
  decide

/-- Witness for C4 (amended): on the specified scenario tree the
re-parsed name sequence equals the original one. -/
theorem reparse_format_names_witness :
    (parseA (strL "/cwd")
        (renderLines (formatA (strL "/cwd") (strL "/work")
          (parseA (strL "/cwd") (strL "app/\n  src/\n    index.js\n  README.md") (strL "/work"))))
        (strL "/work")).map Node.name =
      (parseA (strL "/cwd") (strL "app/\n  src/\n    index.js\n  README.md") (strL "/work")).map
        Node.name :=
  reparse_format_names (strL "/cwd") (strL "app/\n  src/\n    index.js\n  README.md")
    (strL "/work") (strL "/cwd") (strL "/work") (strL "/work") (by decide)

/-- C5: in parseTree (variant A) output, whenever node j is the
nearest preceding node with strictly smaller depth than node i, node
i's path is node j's path joined (path.resolve) with node i's stored
name.  The name-nonemptiness hypothesis only excludes the label "/",
whose stored name is empty. -/
theorem parseTree_parent_nearest_shallower (cwd text b : Str) (i j : Nat)
    (hi : i < (parseA cwd text b).length) (hj : j < (parseA cwd text b).length)
    (hji : j < i)
    (hd : (parseA cwd text b)[j].depth < (parseA cwd text b)[i].depth)
    (hmid : ∀ m (hm : m < (parseA cwd text b).length), j < m → m < i →
      (parseA cwd text b)[i].depth ≤ (parseA cwd text b)[m].depth)
    (hname : (parseA cwd text b)[i].name ≠ []) :
    (parseA cwd text b)[i].path =
      resolveP cwd ((parseA cwd text b)[j].path) ((parseA cwd text b)[i].name) := by
  have h := parseA_path_spec cwd text b i hi hname
  have hlen : ((parseA cwd text b).take i).length = i := by
    rw [List.length_take]
    omega
  have hjt : j < ((parseA cwd text b).take i).length := by omega
  have hpj : ((parseA cwd text b).take i)[j].depth < (parseA cwd text b)[i].depth := by
    rw [List.getElem_take]
    exact hd
  have hrest : ∀ m (hm : m < ((parseA cwd text b).take i).length), j < m →
      ¬(((parseA cwd text b).take i)[m].depth < (parseA cwd text b)[i].depth) := by
    intro m hm hjm
    rw [List.getElem_take]
    have hmi : m < i := by omega
    exact Nat.not_lt.mpr (hmid m (by omega) hjm hmi)
  have hfind := find?_nearest ((parseA cwd text b).take i)
    ((parseA cwd text b)[i].depth) j hjt hpj hrest
  rw [hfind] at h
  rw [show parentFrom b (some ((parseA cwd text b).take i)[j]) =
      (((parseA cwd text b).take i)[j]).path from rfl] at h
  rw [List.getElem_take] at h
  exact h

/-- Witness for C5: in "a/\n  b/\n  c.js" the node c.js (index 2) has
node a (index 0) as nearest shallower predecessor, and its path is
a's path joined with c.js. -/
theorem parseTree_parent_nearest_shallower_witness :
    ((parseA (strL "/cwd") (strL "a/\n  b/\n  c.js") (strL "/work")).get ⟨2, by decide⟩).path =
      resolveP (strL "/cwd")
        (((parseA (strL "/cwd") (strL "a/\n  b/\n  c.js") (strL "/work")).get ⟨0, by decide⟩).path)
        (((parseA (strL "/cwd") (strL "a/\n  b/\n  c.js") (strL "/work")).get ⟨2, by decide⟩).name) :=
  parseTree_parent_nearest_shallower (strL "/cwd") (strL "a/\n  b/\n  c.js") (strL "/work")
    2 0 (by decide) (by decide) (by decide) (by decide)
    (fun m hm h1 h2 => by
      have hm1 : m = 1 := by omega
      subst hm1
      exact Nat.le_refl 2)
    (by decide)

/-- C6: the number of nodes parseTree (variant A) returns equals the
number of non-blank lines whose stripped label is non-empty; and a
line with an empty stripped label is a complete no-op of the per-line
loop — it emits nothing and leaves the ancestor stack untouched (for
either variant's node constructor). -/
theorem parseTree_count_and_skip :
    (∀ cwd text b : Str, (parseA cwd text b).length =
      ((filteredLines text).filter (fun l => !(lineName l).isEmpty)).length)
    ∧ (∀ (mk : Str → Str → Nat → Node) (cwd b : Str) (ls1 ls2 : List Str) (e : Str)
        (st : List Node), lineName e = [] →
        goParse mk cwd b (ls1 ++ e :: ls2) st = goParse mk cwd b (ls1 ++ ls2) st) := by
  constructor
  · intro cwd text b
    have h : (parseA cwd text b).map Node.name =
        ((filteredLines text).filter (fun l => !(lineName l).isEmpty)).map
          (fun l => stripTrailingSlash (lineName l)) :=
      goParse_names cwd b (filteredLines text) []
    calc (parseA cwd text b).length
        = ((parseA cwd text b).map Node.name).length := (List.length_map _ _).symm
    _ = ((filteredLines text).filter (fun l => !(lineName l).isEmpty)).length := by
        rw [h, List.length_map]
  · exact goParse_skip

/-- Witness for C6: dropping the glyph-only line "│" from a line list
does not change the parse. -/
theorem parseTree_count_and_skip_witness :
    goParse nodeA (strL "/cwd") (strL "/work") [strL "a/", strL "│", strL "  b.txt"] [] =
      goParse nodeA (strL "/cwd") (strL "/work") [strL "a/", strL "  b.txt"] [] :=
  parseTree_count_and_skip.2 nodeA (strL "/cwd") (strL "/work")
    [strL "a/"] [strL "  b.txt"] (strL "│") [] (by decide)

/-- C7 counterexample: parseTree variant B stores the label app/ with
its trailing separator intact — the stored name is "app/", not the
separator-stripped "app" the claim requires. -/
theorem parseTree_B_keeps_trailing_slash :
    (parseB (strL "/cwd") (strL "app/") (strL "/work")).map Node.name = [strL "app/"]
    ∧ stripTrailingSlash (lineName (strL "app/")) = strL "app"
    ∧ strL "app/" ≠ strL "app" := by decide

/-- C7 (amended): in parseTree variant A every stored name is the
line's label — glyphs removed, whitespace trimmed — with one trailing
'/' removed; variant B stores the label unstripped. -/
theorem parseTree_A_stored_names (cwd text b : Str) :
    (parseA cwd text b).map Node.name =
      ((filteredLines text).filter (fun l => !(lineName l).isEmpty)).map
        (fun l => stripTrailingSlash (lineName l)) :=
  goParse_names cwd b (filteredLines text) []

/-- C8: Commands.validate exits non-zero iff some parsed path is
missing from disk, prints one step line per missing path and an error
naming the count, and prints the success message with exit 0 when
nothing is missing. -/
theorem validate_missing_report (cwd text outDir : Str) (fs : FS) :
    ((validateCmd cwd text outDir fs).2 ≠ 0 ↔
      ∃ n ∈ parseA cwd text outDir, fs.existsSync n.path = false)
    ∧ (∀ n ∈ parseA cwd text outDir, fs.existsSync n.path = false →
        Msg.step n.path ∈ (validateCmd cwd text outDir fs).1)
    ∧ ((∀ n ∈ parseA cwd text outDir, fs.existsSync n.path = true) →
        (validateCmd cwd text outDir fs).2 = 0 ∧
          Msg.success (strL "All items present.") ∈ (validateCmd cwd text outDir fs).1)
    ∧ ((∃ n ∈ parseA cwd text outDir, fs.existsSync n.path = false) →
        Msg.error (strL "Missing " ++
            (Nat.repr ((parseA cwd text outDir).filter
              (fun n => !fs.existsSync n.path)).length).toList ++ strL " items:") ∈
          (validateCmd cwd text outDir fs).1) := by
  by_cases hM : ((parseA cwd text outDir).filter (fun n => !fs.existsSync n.path)).isEmpty
  · have h0 : (parseA cwd text outDir).filter (fun n => !fs.existsSync n.path) = [] :=
      List.isEmpty_iff.mp hM
    have hall : ∀ n ∈ parseA cwd text outDir, fs.existsSync n.path = true := by
      intro n hn
      by_contra hc
      have hmem : n ∈ (parseA cwd text outDir).filter (fun n => !fs.existsSync n.path) :=
        List.mem_filter.mpr ⟨hn, by simp [Bool.not_eq_true] at hc; simp [hc]⟩
      rw [h0] at hmem
      simp at hmem
    have hval : validateCmd cwd text outDir fs =
        ([Msg.header (strL "🔍 Validating Integrity..."),
          Msg.success (strL "All items present.")], 0) := by
      unfold validateCmd
      rw [if_pos hM]
    refine ⟨?_, ?_, ?_, ?_⟩
    · rw [hval]
      constructor
      · intro hc; exact absurd rfl hc
      · rintro ⟨n, hn, hf⟩
        rw [hall n hn] at hf
        simp at hf
    · intro n hn hf
      rw [hall n hn] at hf
      simp at hf
    · intro _
      rw [hval]
      exact ⟨rfl, by simp⟩
    · rintro ⟨n, hn, hf⟩
      rw [hall n hn] at hf
      simp at hf
  · have hne : (parseA cwd text outDir).filter (fun n => !fs.existsSync n.path) ≠ [] := by
      intro hc
      exact hM (List.isEmpty_iff.mpr hc)
    have hval : validateCmd cwd text outDir fs =
        (Msg.header (strL "🔍 Validating Integrity...") ::
          Msg.error (strL "Missing " ++
            (Nat.repr ((parseA cwd text outDir).filter
              (fun n => !fs.existsSync n.path)).length).toList ++ strL " items:") ::
          ((parseA cwd text outDir).filter (fun n => !fs.existsSync n.path)).map
            (fun m => Msg.step m.path), 1) := by
      unfold validateCmd
      rw [if_neg hM]
    refine ⟨?_, ?_, ?_, ?_⟩
    · rw [hval]
      constructor
      · intro _
        obtain ⟨n, hn⟩ := List.exists_mem_of_ne_nil _ hne
        have h1 := List.mem_filter.mp hn
        exact ⟨n, h1.1, by simpa using h1.2⟩
      · intro _
        simp
    · intro n hn hf
      rw [hval]
      have hmem : n ∈ (parseA cwd text outDir).filter (fun n => !fs.existsSync n.path) :=
        List.mem_filter.mpr ⟨hn, by simp [hf]⟩
      simp only [List.mem_cons]
      right; right
      exact List.mem_map_of_mem _ hmem
    · intro hall
      exfalso
      apply hne
      rw [List.filter_eq_nil_iff]
      intro n hn
      simp [hall n hn]
    · intro _
      rw [hval]
      simp

/-- Witness for C8: with only /work/a on disk, validating the tree
"a/\n  missing.txt" exits non-zero and itemizes the missing path. -/
theorem validate_missing_report_witness :
    (validateCmd (strL "/cwd") (strL "a/\n  missing.txt") (strL "/work")
        ⟨[], [strL "/work/a"]⟩).2 ≠ 0
    ∧ Msg.step (strL "/work/a/missing.txt") ∈
        (validateCmd (strL "/cwd") (strL "a/\n  missing.txt") (strL "/work")
          ⟨[], [strL "/work/a"]⟩).1 :=
  ⟨(validate_missing_report (strL "/cwd") (strL "a/\n  missing.txt") (strL "/work")
      ⟨[], [strL "/work/a"]⟩).1.mpr
      ⟨⟨strL "missing.txt", strL "/work/a/missing.txt", 2, true⟩, by decide, by decide⟩,
   (validate_missing_report (strL "/cwd") (strL "a/\n  missing.txt") (strL "/work")
      ⟨[], [strL "/work/a"]⟩).2.1
      ⟨strL "missing.txt", strL "/work/a/missing.txt", 2, true⟩ (by decide) (by decide)⟩

/-- C9 counterexample: re-running create without --force and without
--verbose leaves the existing file /work/a.txt (content "hello")
untouched but emits no skip report at all — the log is just the
header and the completion message. -/
theorem create_skip_unreported_cex :
    createCmd (strL "/cwd") (strL "a.txt") (strL "/work") false false
        ⟨[(strL "/work/a.txt", strL "hello")], [strL "/work"]⟩ =
      (⟨[(strL "/work/a.txt", strL "hello")], [strL "/work"]⟩,
       [Msg.header (strL "🚀 Manifesting Structure: /work"),
        Msg.success (strL "Creation complete.")])
    ∧ Msg.warn (strL "Skipped: a.txt") ∉
        (createCmd (strL "/cwd") (strL "a.txt") (strL "/work") false false
          ⟨[(strL "/work/a.txt", strL "hello")], [strL "/work"]⟩).2 := by decide

/-- C9 (amended): without --force, create never writes to a
pre-existing file (its content is preserved), and each pre-existing
file node is reported as skipped when — and only when — --verbose is
set. -/
theorem create_noforce_preserves (cwd text outDir : Str) (verbose : Bool) (fs : FS) :
    (∀ p c : Str, lookupFile fs.files p = some c →
      lookupFile (createCmd cwd text outDir false verbose fs).1.files p = some c)
    ∧ (verbose = true → ∀ n ∈ parseA cwd text outDir, n.isFile = true →
        fs.existsSync n.path = true →
        Msg.warn (strL "Skipped: " ++ n.name) ∈
          (createCmd cwd text outDir false verbose fs).2) := by
  constructor
  · intro p c h
    unfold createCmd
    exact createFold_lookup verbose (parseA cwd text outDir)
      (fs, [Msg.header (strL "🚀 Manifesting Structure: " ++ resolveArgs cwd [outDir])]) p c h
  · intro hv n hn hf he
    subst hv
    unfold createCmd
    apply List.mem_append.mpr
    left
    exact createFold_warn (parseA cwd text outDir)
      (fs, [Msg.header (strL "🚀 Manifesting Structure: " ++ resolveArgs cwd [outDir])])
      n hn hf he

/-- Witness for C9: with --verbose, re-running create on a.txt keeps
the content "hello" and logs the skip. -/
theorem create_noforce_preserves_witness :
    lookupFile (createCmd (strL "/cwd") (strL "a.txt") (strL "/work") false true
        ⟨[(strL "/work/a.txt", strL "hello")], [strL "/work"]⟩).1.files
        (strL "/work/a.txt") = some (strL "hello")
    ∧ Msg.warn (strL "Skipped: a.txt") ∈
        (createCmd (strL "/cwd") (strL "a.txt") (strL "/work") false true
          ⟨[(strL "/work/a.txt", strL "hello")], [strL "/work"]⟩).2 :=
  ⟨(create_noforce_preserves (strL "/cwd") (strL "a.txt") (strL "/work") true
      ⟨[(strL "/work/a.txt", strL "hello")], [strL "/work"]⟩).1
      (strL "/work/a.txt") (strL "hello") (by decide),
   (create_noforce_preserves (strL "/cwd") (strL "a.txt") (strL "/work") true
      ⟨[(strL "/work/a.txt", strL "hello")], [strL "/work"]⟩).2 rfl
      ⟨strL "a.txt", strL "/work/a.txt", 0, true⟩ (by decide) (by decide) (by decide)⟩

/-- C10 counterexample: the two parseTree variants disagree on the
input ".gitignore\nmy.app/": variant A yields (.gitignore as File,
my.app as Directory named my.app) while variant B yields (.gitignore
as Directory, my.app/ as File named my.app/). -/
theorem parseTree_variants_differ_cex :
    parseA (strL "/cwd") (strL ".gitignore\nmy.app/") (strL "/work") ≠
      parseB (strL "/cwd") (strL ".gitignore\nmy.app/") (strL "/work") := by decide

end Tree2f
